import Mathlib

/-!
Shallow embedding of `src/rank_order.py` (course ranking survey pipeline):
column normalization (`snake_case`, `standardize_df`), value bucketizers
(`categorize_numeric`, `categorize_text`), the three-strategy schema detector
(`find_rank_records`) and the aggregator (`summarize_nas`).

Cells of a pandas DataFrame are modelled by `Cell` (numeric, text, or NA);
a DataFrame is an ordered list of named columns.  Pandas / Python library
primitives used by the source (`pd.to_numeric`, `str.strip`, `str.lower`,
substring test `in`, `int()` on a float) are modelled by small executable
functions defined below, each with a comment naming the primitive it models.
-/

/-- The three ordinal buckets used throughout the program. -/
inductive Bucket where
  | most
  | neutral
  | least
deriving DecidableEq, Repr

/-- A single cell of the table: a numeric value, a text value, or missing (NaN/NA). -/
inductive Cell where
  | num (q : ℚ)
  | str (s : String)
  | na
deriving DecidableEq, Repr

/-- Models the Python substring test `needle in hay`. -/
def strContains (hay needle : String) : Bool :=
  hay.toList.tails.any (fun t => needle.toList.isPrefixOf t)

/-- Models Python `s.startswith(p)`. -/
def strStartsWith (s p : String) : Bool := p.data.isPrefixOf s.data

/-- Whitespace characters removed by Python `str.strip()`. -/
def isSpc (c : Char) : Bool :=
  c = ' ' || c = '\t' || c = '\n' || c = '\r' || c = '\x0b' || c = '\x0c'

/-- Drop characters satisfying `p` from both ends of a character list. -/
def stripEnds (p : Char → Bool) (l : List Char) : List Char :=
  ((l.dropWhile p).reverse.dropWhile p).reverse

/-- Models Python `str.strip()` (no argument form: strips whitespace). -/
def pyStrip (s : String) : String := ⟨stripEnds isSpc s.data⟩

/-- Models Python `str.lower()` (ASCII lowering, via `Char.toLower`). -/
def pyLower (s : String) : String := ⟨s.data.map Char.toLower⟩

/-- Models Python `str(value)` on a cell (claims only exercise text cells;
a numeric cell is rendered via its `Rat` representation, NA via `"nan"`). -/
def pyStr (c : Cell) : String :=
  match c with
  | .str s => s
  | .num q => toString q
  | .na => "nan"

/-- `TEXT_BUCKET_MAP` from the source, in Python dict insertion order. -/
def TEXT_BUCKET_MAP : List (String × Bucket) :=
  [("most beneficial", .most),
   ("most", .most),
   ("beneficial", .most),
   ("neutral", .neutral),
   ("neither", .neutral),
   ("least beneficial", .least),
   ("least", .least)]

/-- `categorize_text` from the source: NA → none; strip+lower the text; blank,
"did not take" substring or exact "n/a" → none; otherwise the bucket of the
first key of `TEXT_BUCKET_MAP` occurring as a substring. -/
def categorize_text (value : Cell) : Option Bucket :=
  match value with
  | .na => none
  | v =>
    let text := pyLower (pyStrip (pyStr v))
    if text = "" then none
    else if strContains text "did not take" || text = "n/a" then none
    else (TEXT_BUCKET_MAP.find? (fun kb => strContains text kb.1)).map (·.2)

/-- `FORCED_SCALE_LABELS` from the source (dict insertion order). -/
def FORCED_SCALE_LABELS : List (Bucket × ℚ × ℚ) :=
  [(.most, 1, 3), (.neutral, 4, 5), (.least, 6, 8)]

/-- `LIKERT_LABELS` from the source (dict insertion order). -/
def LIKERT_LABELS : List (Bucket × ℚ × ℚ) :=
  [(.most, 4, 5), (.neutral, 3, 3), (.least, 1, 2)]

/-- `categorize_numeric` from the source.  A missing value (modelled by
`none`, the NaN case of `pd.isna`) → none; `scale_max ≥ 8` selects the forced
scale, `scale_max = 5` the Likert scale, anything else → none; then the first
range `(low, high)` with `low ≤ v ≤ high` gives the bucket, else none. -/
def categorize_numeric (value : Option ℚ) (scale_max : ℤ) : Option Bucket :=
  match value with
  | none => none
  | some v =>
    let bins : Option (List (Bucket × ℚ × ℚ)) :=
      if scale_max ≥ 8 then some FORCED_SCALE_LABELS
      else if scale_max = 5 then some LIKERT_LABELS
      else none
    match bins with
    | none => none
    | some bs =>
      (bs.find? (fun t => decide (t.2.1 ≤ v) && decide (v ≤ t.2.2))).map (·.1)

/-- An ordered table of named columns (the model of a pandas DataFrame). -/
structure DF where
  cols : List (String × List Cell)
deriving DecidableEq

/-- One (course, bucket) observation emitted by the schema detector. -/
structure Obs where
  course : String
  bucket : Bucket
deriving DecidableEq, Repr

/-- The value of a decimal digit character, if it is one. -/
def digitVal? (c : Char) : Option ℕ :=
  if 48 ≤ c.toNat ∧ c.toNat ≤ 57 then some (c.toNat - 48) else none

/-- Parse a run of decimal digits into an accumulator (none on a non-digit). -/
def parseNatAux : List Char → ℕ → Option ℕ
  | [], acc => some acc
  | c :: rest, acc =>
    match digitVal? c with
    | none => none
    | some d => parseNatAux rest (acc * 10 + d)

/-- Parse an optionally signed run of decimal digits as an integer. -/
def parseInt? (l : List Char) : Option ℤ :=
  match l with
  | [] => none
  | '-' :: rest =>
    if rest = [] then none else (parseNatAux rest 0).map (fun n => -(n : ℤ))
  | _ => (parseNatAux l 0).map (fun n => (n : ℤ))

/-- Models `pd.to_numeric(·, errors="coerce")` on one cell: numeric cells pass
through, integer-looking text parses (model of pandas' numeric-string
parsing), everything else (and NA) coerces to NaN (`none`). -/
def coerceNum (c : Cell) : Option ℚ :=
  match c with
  | .num q => some q
  | .str s => (parseInt? (pyStrip s).data).map (fun n => (n : ℚ))
  | .na => none

/-- Models `series.astype("string")` on one cell: NA stays NA, other cells
become their string rendering. -/
def cellToStr (c : Cell) : Option String :=
  match c with
  | .na => none
  | v => some (pyStr v)

/-- Models `df[name]`: the values of the first column with that label. -/
def colValues (df : DF) (name : String) : List Cell :=
  ((df.cols.find? (fun c => c.1 = name)).map (·.2)).getD []

/-- Maximum of a list of rationals (models `series.max()`; the `[]` case is
never reached by callers, which guard against empty series). -/
def listMax : List ℚ → ℚ
  | [] => 0
  | x :: xs => xs.foldl max x

/-- Models Python `int()` on a float: truncation toward zero. -/
def pyInt (q : ℚ) : ℤ := if 0 ≤ q then ⌊q⌋ else ⌈q⌉

/-- Is the value in the closed interval `[1, 8]` (the `between(1, 8)` test)? -/
def inRange18 (q : ℚ) : Bool := decide (1 ≤ q) && decide (q ≤ 8)

/-- `BLOCK_COLUMN_HINTS` from the source. -/
def BLOCK_COLUMN_HINTS : List String :=
  ["rank", "beneficial", "course", "program", "acc", "q84", "preparation"]

/-- `looks_like_course_col` from the source: some hint occurs in the lowered name. -/
def looks_like_course_col (name : String) : Bool :=
  BLOCK_COLUMN_HINTS.any (fun hint => strContains (pyLower name) hint)

/-- Strategy 1 candidate scan of `find_rank_records`: for each column, coerce
to numeric; keep it if it has valid values, at least 70% of them lie in
`[1, 8]`, and it has at least 3 distinct valid values.  The candidate carries
the coerced series and `int(valid.max())` as its scale. -/
def numericCandidates (df : DF) : List (String × List (Option ℚ) × ℤ) :=
  df.cols.filterMap (fun c =>
    let series := c.2.map coerceNum
    let nonNa := series.filterMap id
    if nonNa = [] then none
    else if 10 * nonNa.countP inRange18 ≥ 7 * nonNa.length ∧ nonNa.dedup.length ≥ 3
    then some (c.1, series, pyInt (listMax nonNa))
    else none)

/-- Strategy 1 of `find_rank_records` (wide numeric-per-course): restrict the
candidates to hinted column names when any are hinted, then bucketize every
value of every candidate column, the column label being the course. -/
def strat1 (df : DF) : List Obs :=
  let cands := numericCandidates df
  let filtered := cands.filter (fun t => looks_like_course_col t.1)
  let cands := if filtered.isEmpty then cands else filtered
  cands.flatMap (fun t =>
    t.2.1.filterMap (fun v => (categorize_numeric v t.2.2).map (fun b => ⟨t.1, b⟩)))

/-- One course-column × rank-column pair of Strategy 2: coerce the rank
column; require valid values with at least 70% in `[1, 8]`; scale is
`int(valid.max())`; pair each row's stripped non-blank course text with its
bucketized rank value, dropping rows without a bucket. -/
def strat2tryPair (df : DF) (ccol rcol : String) : List Obs :=
  let courseS := (colValues df ccol).map cellToStr
  let rankS := (colValues df rcol).map coerceNum
  let valid := rankS.filterMap id
  if valid = [] then []
  else if 10 * valid.countP inRange18 < 7 * valid.length then []
  else
    let scale_max := pyInt (listMax valid)
    (courseS.zip rankS).filterMap (fun p =>
      match p.1, p.2 with
      | some cs, some rv =>
        let cs := pyStrip cs
        if cs = "" then none
        else (categorize_numeric (some rv) scale_max).map (fun b => ⟨cs, b⟩)
      | _, _ => none)

/-- Strategy 2 of `find_rank_records` (long-form course+rank): course columns
contain "course" or "program", rank columns contain "rank" or "rating" or
start with "q"; the first pair (in column order) yielding observations wins. -/
def strat2 (df : DF) : List Obs :=
  let names := df.cols.map (·.1)
  let ccols := names.filter (fun c => strContains c "course" || strContains c "program")
  let rcols := names.filter (fun c =>
    strContains c "rank" || strContains c "rating" || strStartsWith c "q")
  ((ccols.flatMap (fun c => rcols.map (fun r => strat2tryPair df c r))).find?
      (fun l => !l.isEmpty)).getD []

/-- Strategy 3 of `find_rank_records` (bucketed free text): for each column
whose name contains one of the keywords, bucketize its text row-wise; skip it
under 5 classified rows; require an explicit "course" column and pair each
row's stripped non-blank course value with its bucket; first non-empty wins. -/
def strat3 (df : DF) : List Obs :=
  let names := df.cols.map (·.1)
  let tcols := names.filter (fun c =>
    ["beneficial", "preference", "rank", "rating", "course"].any
      (fun k => strContains c k))
  let results := tcols.map (fun col =>
    let mapped := (colValues df col).map categorize_text
    if mapped.countP (fun b => b.isSome) < 5 then []
    else
      match df.cols.find? (fun c => c.1 = "course") with
      | none => []
      | some cc =>
        (cc.2.zip mapped).filterMap (fun p =>
          match p.1, p.2 with
          | .na, _ => none
          | _, none => none
          | cell, some b =>
            let cs := pyStrip (pyStr cell)
            if cs = "" then none else some ⟨cs, b⟩))
  (results.find? (fun l => !l.isEmpty)).getD []

/-- The error message raised when no strategy produces observations. -/
def detectErrMsg : String :=
  "Could not detect ranking fields. Expected either: (1) per-course numeric ranking columns, (2) a course column plus numeric rank/rating column, or (3) bucketed Most/Neutral/Least responses."

/-- `find_rank_records` from the source: the three strategies tried in order,
the first one yielding a non-empty observation list wins; if all three come
up empty, the `ValueError` (as `Except.error`) is raised. -/
def find_rank_records (df : DF) : Except String (List Obs) :=
  let r1 := strat1 df
  if r1.isEmpty then
    let r2 := strat2 df
    if r2.isEmpty then
      let r3 := strat3 df
      if r3.isEmpty then .error detectErrMsg else .ok r3
    else .ok r2
  else .ok r1

/-- One row of the summary table produced by `summarize_nas`. -/
structure Row where
  rank : ℕ
  course : String
  n_total : ℕ
  n_most : ℕ
  n_neutral : ℕ
  n_least : ℕ
  pct_most : ℚ
  pct_least : ℚ
  nas : ℚ
deriving DecidableEq, Repr

/-- The distinct course keys of the observation list, in first-occurrence
order (pandas `groupby` sorts keys, but the final `sort_values` reorders rows
anyway, so group order never reaches the output ordering). -/
def courseKeys (recs : List Obs) : List String := (recs.map (·.course)).dedup

/-- The summary row of one course: bucket value-counts, their sum as
`n_total`, and the percentage / NAS formulas of `summarize_nas`. -/
def mkRow (recs : List Obs) (course : String) : Row :=
  let g := recs.filter (fun o => o.course = course)
  let m := g.countP (fun o => o.bucket = .most)
  let ne := g.countP (fun o => o.bucket = .neutral)
  let l := g.countP (fun o => o.bucket = .least)
  let tot := m + ne + l
  let pm : ℚ := (m : ℚ) / (tot : ℚ) * 100
  let pl : ℚ := (l : ℚ) / (tot : ℚ) * 100
  { rank := 0, course := course, n_total := tot, n_most := m, n_neutral := ne,
    n_least := l, pct_most := pm, pct_least := pl, nas := pm - pl }

/-- The sort key of `sort_values(by=["nas", "pct_most", "n_total"],
ascending=[False, False, False])`: `a` may precede `b`. -/
def rowLE (a b : Row) : Bool :=
  decide (b.nas < a.nas) ||
    (decide (a.nas = b.nas) &&
      (decide (b.pct_most < a.pct_most) ||
        (decide (a.pct_most = b.pct_most) && decide (b.n_total ≤ a.n_total))))

/-- Insert a row into a list sorted by `rowLE`. -/
def insertRow (r : Row) : List Row → List Row
  | [] => [r]
  | x :: xs => if rowLE r x then r :: x :: xs else x :: insertRow r xs

/-- Insertion sort by the descending (nas, pct_most, n_total) key. -/
def sortRows (l : List Row) : List Row := l.foldr insertRow []

/-- Assign ranks `n, n+1, …` positionally (models `range(1, len+1)`). -/
def rankFrom : ℕ → List Row → List Row
  | _, [] => []
  | n, r :: rs => { r with rank := n } :: rankFrom (n + 1) rs

/-- `summarize_nas` from the source: group observations by course, count the
buckets, drop groups with zero total (defensive guard in the code), compute
percentages and NAS, sort by the descending triple and attach 1-based ranks. -/
def summarize_nas (recs : List Obs) : List Row :=
  rankFrom 1 (sortRows
    (((courseKeys recs).map (mkRow recs)).filter (fun r => 0 < r.n_total)))

/-- Characters kept by the `[^a-z0-9]+` substitution of `snake_case`
(after lowering): ASCII lowercase letters and digits. -/
def isKeep (c : Char) : Bool :=
  (97 ≤ c.toNat && c.toNat ≤ 122) || (48 ≤ c.toNat && c.toNat ≤ 57)

/-- Models `re.sub(r"[^a-z0-9]+", "_", ·)`: replace every maximal run of
non-kept characters by a single underscore.  The flag records whether the
previous character was part of such a run (so the run emits only one `_`);
this also renders the source's follow-up `re.sub(r"_+", "_", ·)` a no-op. -/
def squash : List Char → Bool → List Char
  | [], _ => []
  | c :: rest, prevSep =>
    if isKeep c then c :: squash rest false
    else if prevSep then squash rest true
    else '_' :: squash rest true

/-- The character-list core of `snake_case`: strip+lower, substitute runs of
non-alphanumerics by `_`, strip underscores, fall back to `"unnamed"`. -/
def snakeList (l : List Char) : List Char :=
  let t := stripEnds (fun c => c = '_') (squash ((stripEnds isSpc l).map Char.toLower) false)
  if t = [] then "unnamed".data else t

/-- `snake_case` from the source. -/
def snake_case (s : String) : String := ⟨snakeList s.data⟩

/-- The decimal digit character of `n % 10` (total: every argument ≥ 9 maps
to `'9'`, but callers only pass values below 10). -/
def digitChar (n : ℕ) : Char :=
  match n with
  | 0 => '0' | 1 => '1' | 2 => '2' | 3 => '3' | 4 => '4'
  | 5 => '5' | 6 => '6' | 7 => '7' | 8 => '8' | _ => '9'

/-- Fuel-driven decimal digits of a natural number (most significant first). -/
def natDigitsAux : ℕ → ℕ → List Char
  | 0, _ => []
  | fuel + 1, n =>
    if n < 10 then [digitChar n]
    else natDigitsAux fuel (n / 10) ++ [digitChar (n % 10)]

/-- Decimal digit string of `n` (models Python `f"{i}"` for a natural `i`). -/
def natDigits (n : ℕ) : List Char := natDigitsAux (n + 1) n

/-- Models the f-string `f"{base}_{i}"` of the collision loop. -/
def withSuffix (base : String) (i : ℕ) : String := base ++ "_" ++ ⟨natDigits i⟩

/-- First candidate not yet used (the body of the `while name in used` loop).
The default is returned only when every candidate is taken, which the caller
makes impossible by supplying more candidates than used names. -/
def firstFresh (cands : List String) (used : List String) (dflt : String) : String :=
  match cands with
  | [] => dflt
  | c :: rest => if c ∈ used then firstFresh rest used dflt else c

/-- The collision loop of `standardize_df`: `name = base`, then `base_2`,
`base_3`, … until the name is unused.  Since the candidates are pairwise
distinct, searching `used.length + 1` of them always finds the loop's
answer, so the bounded search agrees with the unbounded Python loop. -/
def freshName (base : String) (used : List String) : String :=
  if base ∈ used then
    firstFresh ((List.range (used.length + 1)).map (fun k => withSuffix base (k + 2)))
      used (withSuffix base 0)
  else base

/-- Does the Python dict (modelled as an assoc list) have this key? -/
def dictHasKey (d : List (String × String)) (k : String) : Bool :=
  d.any (fun p => p.1 = k)

/-- Python dict assignment `d[k] = v`: overwrite in place or append. -/
def dictInsert (d : List (String × String)) (k v : String) : List (String × String) :=
  if dictHasKey d k then d.map (fun p => if p.1 = k then (k, v) else p)
  else d ++ [(k, v)]

/-- Python dict lookup `d[k]` (as an option). -/
def dictGet (d : List (String × String)) (k : String) : Option String :=
  (d.find? (fun p => p.1 = k)).map (·.2)

/-- The renaming-dict construction loop of `standardize_df`: for each column
label in order, compute its snake-cased, collision-resolved name, record it
in `used`, and store `renamed[label] = name` (dict semantics: a repeated
label overwrites its earlier entry). -/
def buildRen : List String → List String → List (String × String) → List (String × String)
  | [], _, d => d
  | c :: rest, used, d =>
    let name := freshName (snake_case c) used
    buildRen rest (name :: used) (dictInsert d c name)

/-- The effect of `df.rename(columns=renamed)` on the label list: every label
is replaced by its entry in the dict built by `buildRen`. -/
def standardizeNames (cols : List String) : List String :=
  let d := buildRen cols [] []
  cols.map (fun c => (dictGet d c).getD c)

/-- `standardize_df` from the source: rename the columns, leave values alone. -/
def standardize_df (df : DF) : DF :=
  ⟨(standardizeNames (df.cols.map (·.1))).zip (df.cols.map (·.2))⟩

/-- Positional variant of the renaming (proof helper): the name assigned to
each column position by the loop.  Agrees with `standardizeNames` whenever
the labels are pairwise distinct. -/
def assigned : List String → List String → List String
  | [], _ => []
  | c :: cs, used =>
    let n := freshName (snake_case c) used
    n :: assigned cs (n :: used)



/-- Decimal value of a digit string (proof helper, inverse of `natDigits`). -/
def digitsVal (l : List Char) : ℕ :=
  l.foldl (fun a c => a * 10 + (c.toNat - 48)) 0

/-- No two adjacent underscores. -/
def noAdjU (l : List Char) : Prop :=
  l.Chain' (fun a b => ¬(a = '_' ∧ b = '_'))

/-- A canonical identifier: nonempty, only lowercase alphanumerics and
underscores, no two adjacent underscores, and no underscore at either end.
`snake_case` always produces canonical names and is the identity on them. -/
def canonical (l : List Char) : Prop :=
  l ≠ [] ∧ (∀ c ∈ l, isKeep c = true ∨ c = '_')
    ∧ noAdjU l ∧ l.head? ≠ some '_' ∧ l.getLast? ≠ some '_'

/-! ### Concrete tables and observation lists used by witnesses and counterexamples -/

/-- Empty table (no columns): no strategy can produce observations. -/
def dfEmpty : DF := ⟨[]⟩

/-- A table satisfying both the Strategy 1 shape (numeric "rank" column on a
1–8 scale) and the Strategy 2 shape (course column plus rank column). -/
def dfC3 : DF :=
  ⟨[("course", [.str "A", .str "B", .str "C"]),
    ("rank", [.num 1, .num 2, .num 8])]⟩

/-- A wide table whose single ranking column has valid maximum 7.5. -/
def dfC2 : DF := ⟨[("rank_a", [.num 1, .num 2, .num (mkRat 15 2)])]⟩

/-- A long-form course+rank table whose rank column has valid maximum 7.5. -/
def dfC2b : DF :=
  ⟨[("course", [.str "A", .str "B", .str "C"]),
    ("rank", [.num 1, .num 2, .num (mkRat 15 2)])]⟩

/-- Ten observations for one course: 6 most, 2 neutral, 2 least. -/
def recsC6 : List Obs :=
  [⟨"X", .most⟩, ⟨"X", .most⟩, ⟨"X", .most⟩, ⟨"X", .most⟩, ⟨"X", .most⟩,
   ⟨"X", .most⟩, ⟨"X", .neutral⟩, ⟨"X", .neutral⟩, ⟨"X", .least⟩, ⟨"X", .least⟩]

/-- Course A: 10 observations (6/2/2); course B: 5 observations (3/1/1).
Both have nas = 40 and pct_most = 60; they differ only in `n_total`. -/
def recsC7 : List Obs :=
  [⟨"A", .most⟩, ⟨"A", .most⟩, ⟨"A", .most⟩, ⟨"A", .most⟩, ⟨"A", .most⟩,
   ⟨"A", .most⟩, ⟨"A", .neutral⟩, ⟨"A", .neutral⟩, ⟨"A", .least⟩, ⟨"A", .least⟩,
   ⟨"B", .most⟩, ⟨"B", .most⟩, ⟨"B", .most⟩, ⟨"B", .neutral⟩, ⟨"B", .least⟩]

/-- A table with two identically labelled columns. -/
def dfC8 : DF := ⟨[("a", [.na]), ("a", [.na])]⟩

/-- A table with distinct labels that collide after snake-casing. -/
def dfC8w : DF := ⟨[("A b", [.na]), ("a_b", [.na])]⟩

/-- The expected summary row for course "X" of `recsC6`. -/
def rowX : Row := ⟨1, "X", 10, 6, 2, 2, 60, 20, 40⟩

/-- The expected summary rows for courses "A" and "B" of `recsC7`. -/
def rowA : Row := ⟨1, "A", 10, 6, 2, 2, 60, 20, 40⟩

def rowB : Row := ⟨2, "B", 5, 3, 1, 1, 60, 20, 40⟩

/-! ### General helper lemmas -/

theorem zip_map_fst {α β : Type} (a : List α) (b : List β) (h : a.length = b.length) :
    (a.zip b).map Prod.fst = a := by
  induction a generalizing b with
  | nil => simp
  | cons x xs ih =>
    cases b with
    | nil => simp at h
    | cons y ys => simp only [List.zip_cons_cons, List.map_cons]; rw [ih ys (by simpa using h)]

theorem zip_map_snd {α β : Type} (a : List α) (b : List β) (h : a.length = b.length) :
    (a.zip b).map Prod.snd = b := by
  induction a generalizing b with
  | nil => cases b with | nil => simp | cons y ys => simp at h
  | cons x xs ih =>
    cases b with
    | nil => simp at h
    | cons y ys => simp only [List.zip_cons_cons, List.map_cons]; rw [ih ys (by simpa using h)]

/-! ### Claim C1 -/

/-- Claim C1: the claim states that a text response containing "least
beneficial" is bucketed `least` because keyword checks run from most- to
least-specific.  The code iterates `TEXT_BUCKET_MAP` in insertion order,
which places the loose key "beneficial" (bucket most) before the key "least
beneficial" (bucket least); the response "least beneficial" therefore matches
"beneficial" first and is bucketed `most`, not `least`. -/
theorem c1_least_beneficial_is_bucketed_most :
    categorize_text (.str "least beneficial") = some .most
    ∧ categorize_text (.str "least beneficial") ≠ some .least := by
  constructor
  · decide
  · decide

/-! ### Claim C10 -/

/-- Claim C10: the explicit non-response check precedes keyword matching: any
text whose stripped+lowered form contains "did not take" or equals "n/a" is
classified `none`, whatever bucket keywords it also contains. -/
theorem c10_non_response_precedes_keywords (s : String)
    (h : strContains (pyLower (pyStrip s)) "did not take" = true
        ∨ pyLower (pyStrip s) = "n/a") :
    categorize_text (.str s) = none := by
  rcases h with h | h
  · by_cases he : pyLower (pyStrip s) = "" <;>
      simp [categorize_text, pyStr, h, he]
  · simp only [categorize_text, pyStr, h]
    decide

/-- Witness for C10 at a text that contains both the non-response phrase and
the bucket keyword "most beneficial". -/
theorem c10_witness :
    strContains (pyLower (pyStrip " Did Not Take; most beneficial ")) "most beneficial" = true
    ∧ categorize_text (.str " Did Not Take; most beneficial ") = none :=
  ⟨by decide, c10_non_response_precedes_keywords " Did Not Take; most beneficial " (Or.inl (by decide))⟩

/-! ### Claim C9 -/

/-- Claim C9: `standardize_df` changes only column labels: the output has the
same number of columns in the same order and exactly the same value lists
(hence the same row count and cell values at every position). -/
theorem c9_standardize_df_touches_only_labels (df : DF) :
    (standardize_df df).cols.length = df.cols.length
    ∧ (standardize_df df).cols.map Prod.snd = df.cols.map Prod.snd := by
  have hlen : (standardizeNames (df.cols.map Prod.fst)).length
      = (df.cols.map Prod.snd).length := by
    simp [standardizeNames]
  constructor
  · simp only [standardize_df]
    rw [List.length_zip, hlen]
    simp
  · simp only [standardize_df]
    exact zip_map_snd _ _ hlen

/-! ### Claim C3 -/

/-- Claim C3: strategies are tried in fixed priority with no merging: on any
table where Strategy 1 yields a non-empty observation list, `find_rank_records`
returns exactly Strategy 1's observations (in particular when Strategy 2 would
also have produced observations). -/
theorem c3_strategy1_takes_precedence (df : DF)
    (h1 : strat1 df ≠ []) (_h2 : strat2 df ≠ []) :
    find_rank_records df = .ok (strat1 df) := by
  simp [find_rank_records, List.isEmpty_iff, h1]

/-- Witness for C3: a concrete table matched by both Strategy 1 (a hinted
numeric "rank" column) and Strategy 2 (a course/rank column pair), on which
the detector returns Strategy 1's observations. -/
theorem c3_witness :
    strat1 dfC3 ≠ [] ∧ strat2 dfC3 ≠ []
    ∧ find_rank_records dfC3 = .ok (strat1 dfC3)
    ∧ strat1 dfC3 ≠ strat2 dfC3 :=
  ⟨by decide, by decide, c3_strategy1_takes_precedence dfC3 (by decide) (by decide), by decide⟩

/-! ### Claim C5 -/

theorem catnum_forced (s : ℤ) (hs : 8 ≤ s) (q : ℚ) :
    categorize_numeric (some q) s
      = (FORCED_SCALE_LABELS.find?
          (fun t => decide (t.2.1 ≤ q) && decide (q ≤ t.2.2))).map (·.1) := by
  simp [categorize_numeric, show s ≥ 8 from hs]

theorem catnum_likert (q : ℚ) :
    categorize_numeric (some q) 5
      = (LIKERT_LABELS.find?
          (fun t => decide (t.2.1 ≤ q) && decide (q ≤ t.2.2))).map (·.1) := by
  have h85 : ¬((5 : ℤ) ≥ 8) := by decide
  simp [categorize_numeric, h85]

theorem catnum_other (s : ℤ) (h8 : ¬(s ≥ 8)) (h5 : s ≠ 5) (q : ℚ) :
    categorize_numeric (some q) s = none := by
  simp [categorize_numeric, h8, h5]

/-- Claim C5: `categorize_numeric` is total and implements exactly the two
bucket tables: missing → none; for `scale_max ≥ 8` the ranges most = [1,3],
neutral = [4,5], least = [6,8]; for `scale_max = 5` the ranges most = [4,5],
neutral = [3,3], least = [1,2]; every other scale maps every value to none;
a value outside all configured ranges maps to none. -/
theorem c5_categorize_numeric_tables (s : ℤ) (q : ℚ) :
    categorize_numeric none s = none
    ∧ (8 ≤ s →
        ((1 ≤ q ∧ q ≤ 3) → categorize_numeric (some q) s = some .most)
        ∧ ((4 ≤ q ∧ q ≤ 5) → categorize_numeric (some q) s = some .neutral)
        ∧ ((6 ≤ q ∧ q ≤ 8) → categorize_numeric (some q) s = some .least)
        ∧ ((q < 1 ∨ (3 < q ∧ q < 4) ∨ (5 < q ∧ q < 6) ∨ 8 < q) →
            categorize_numeric (some q) s = none))
    ∧ (((4 ≤ q ∧ q ≤ 5) → categorize_numeric (some q) 5 = some .most)
        ∧ (q = 3 → categorize_numeric (some q) 5 = some .neutral)
        ∧ ((1 ≤ q ∧ q ≤ 2) → categorize_numeric (some q) 5 = some .least)
        ∧ ((q < 1 ∨ (2 < q ∧ q < 3) ∨ (3 < q ∧ q < 4) ∨ 5 < q) →
            categorize_numeric (some q) 5 = none))
    ∧ (s < 8 → s ≠ 5 → categorize_numeric (some q) s = none) := by
  refine ⟨rfl, ?_, ?_, ?_⟩
  · intro hs
    refine ⟨?_, ?_, ?_, ?_⟩
    · rintro ⟨h1, h2⟩
      rw [catnum_forced s hs q]
      simp only [FORCED_SCALE_LABELS]
      rw [List.find?_cons_of_pos _ (by simp [h1, h2])]
      rfl
    · rintro ⟨h1, h2⟩
      rw [catnum_forced s hs q]
      simp only [FORCED_SCALE_LABELS]
      rw [List.find?_cons_of_neg _ (by simp; intro; linarith),
        List.find?_cons_of_pos _ (by simp [h1, h2])]
      rfl
    · rintro ⟨h1, h2⟩
      rw [catnum_forced s hs q]
      simp only [FORCED_SCALE_LABELS]
      rw [List.find?_cons_of_neg _ (by simp; intro; linarith),
        List.find?_cons_of_neg _ (by simp; intro; linarith),
        List.find?_cons_of_pos _ (by simp [h1, h2])]
      rfl
    · intro hout
      rw [catnum_forced s hs q]
      have hnone : FORCED_SCALE_LABELS.find?
          (fun t => decide (t.2.1 ≤ q) && decide (q ≤ t.2.2)) = none := by
        rw [List.find?_eq_none]
        intro x hx
        simp only [FORCED_SCALE_LABELS, List.mem_cons, List.not_mem_nil, or_false] at hx
        rcases hx with rfl | rfl | rfl <;>
          · simp only [Bool.and_eq_true, decide_eq_true_eq, not_and]
            intro ha hb
            rcases hout with h | ⟨h, h'⟩ | ⟨h, h'⟩ | h <;> linarith
      rw [hnone]
      rfl
  · refine ⟨?_, ?_, ?_, ?_⟩
    · rintro ⟨h1, h2⟩
      rw [catnum_likert q]
      simp only [LIKERT_LABELS]
      rw [List.find?_cons_of_pos _ (by simp [h1, h2])]
      rfl
    · rintro rfl
      rw [catnum_likert 3]
      simp only [LIKERT_LABELS]
      rw [List.find?_cons_of_neg _ (by norm_num),
        List.find?_cons_of_pos _ (by simp)]
      rfl
    · rintro ⟨h1, h2⟩
      rw [catnum_likert q]
      simp only [LIKERT_LABELS]
      rw [List.find?_cons_of_neg _ (by simp; intro; linarith),
        List.find?_cons_of_neg _ (by simp; intro; linarith),
        List.find?_cons_of_pos _ (by simp [h1, h2])]
      rfl
    · intro hout
      rw [catnum_likert q]
      have hnone : LIKERT_LABELS.find?
          (fun t => decide (t.2.1 ≤ q) && decide (q ≤ t.2.2)) = none := by
        rw [List.find?_eq_none]
        intro x hx
        simp only [LIKERT_LABELS, List.mem_cons, List.not_mem_nil, or_false] at hx
        rcases hx with rfl | rfl | rfl <;>
          · simp only [Bool.and_eq_true, decide_eq_true_eq, not_and]
            intro ha hb
            rcases hout with h | ⟨h, h'⟩ | ⟨h, h'⟩ | h <;> linarith
      rw [hnone]
      rfl
  · intro h8 h5
    exact catnum_other s (by omega) h5 q

/-- Witness for C5 at the concrete scale/value pairs named by the spec. -/
theorem c5_witness :
    categorize_numeric (some 1) 8 = some .most
    ∧ categorize_numeric (some 4) 8 = some .neutral
    ∧ categorize_numeric (some 6) 8 = some .least
    ∧ categorize_numeric (some 9) 8 = none
    ∧ categorize_numeric (some 5) 5 = some .most
    ∧ categorize_numeric (some 3) 5 = some .neutral
    ∧ categorize_numeric (some 1) 5 = some .least
    ∧ categorize_numeric (some 3) 7 = none :=
  ⟨((c5_categorize_numeric_tables 8 1).2.1 (by norm_num)).1 ⟨by norm_num, by norm_num⟩,
   ((c5_categorize_numeric_tables 8 4).2.1 (by norm_num)).2.1 ⟨by norm_num, by norm_num⟩,
   ((c5_categorize_numeric_tables 8 6).2.1 (by norm_num)).2.2.1 ⟨by norm_num, by norm_num⟩,
   ((c5_categorize_numeric_tables 8 9).2.1 (by norm_num)).2.2.2 (by norm_num),
   (c5_categorize_numeric_tables 5 5).2.2.1.1 ⟨by norm_num, by norm_num⟩,
   (c5_categorize_numeric_tables 5 3).2.2.1.2.1 rfl,
   (c5_categorize_numeric_tables 5 1).2.2.1.2.2.1 ⟨by norm_num, by norm_num⟩,
   (c5_categorize_numeric_tables 7 3).2.2.2 (by norm_num) (by norm_num)⟩

/-! ### Claim C4 -/

/-- Claim C4: `find_rank_records` fails (with the descriptive error naming
the three expected shapes) exactly when none of the three strategies yields
an observation; on every other input it returns a non-empty observation list. -/
theorem c4_detect_error_iff_all_strategies_empty (df : DF) :
    (find_rank_records df = .error detectErrMsg
      ↔ (strat1 df = [] ∧ strat2 df = [] ∧ strat3 df = []))
    ∧ (∀ e, find_rank_records df = .error e → e = detectErrMsg)
    ∧ ((strat1 df ≠ [] ∨ strat2 df ≠ [] ∨ strat3 df ≠ []) →
        ∃ l, find_rank_records df = .ok l ∧ l ≠ [])
    ∧ strContains detectErrMsg "(1) per-course numeric ranking" = true
    ∧ strContains detectErrMsg "(2) a course column plus numeric rank/rating column" = true
    ∧ strContains detectErrMsg "(3) bucketed" = true
    ∧ strContains detectErrMsg "Most/Neutral/Least responses" = true := by
  have hA : strat1 df = [] → strat2 df = [] → strat3 df = [] →
      find_rank_records df = .error detectErrMsg := by
    intro h1 h2 h3
    simp [find_rank_records, List.isEmpty_iff, h1, h2, h3]
  have hB : (strat1 df ≠ [] ∨ strat2 df ≠ [] ∨ strat3 df ≠ []) →
      ∃ l, find_rank_records df = .ok l ∧ l ≠ [] := by
    intro h
    by_cases h1 : strat1 df = []
    · by_cases h2 : strat2 df = []
      · have h3 : strat3 df ≠ [] := by tauto
        exact ⟨strat3 df, by simp [find_rank_records, List.isEmpty_iff, h1, h2, h3], h3⟩
      · exact ⟨strat2 df, by simp [find_rank_records, List.isEmpty_iff, h1, h2], h2⟩
    · exact ⟨strat1 df, by simp [find_rank_records, List.isEmpty_iff, h1], h1⟩
  refine ⟨⟨?_, fun h => hA h.1 h.2.1 h.2.2⟩, ?_, hB, by decide, by decide, by decide, by decide⟩
  · intro he
    by_contra hn
    have hd : strat1 df ≠ [] ∨ strat2 df ≠ [] ∨ strat3 df ≠ [] := by tauto
    obtain ⟨l, hl, _⟩ := hB hd
    rw [he] at hl
    simp at hl
  · intro e he
    by_cases hall : strat1 df = [] ∧ strat2 df = [] ∧ strat3 df = []
    · have h := hA hall.1 hall.2.1 hall.2.2
      rw [h] at he
      exact ((Except.error.injEq _ _).mp he).symm
    · have hd : strat1 df ≠ [] ∨ strat2 df ≠ [] ∨ strat3 df ≠ [] := by tauto
      obtain ⟨l, hl, _⟩ := hB hd
      rw [hl] at he
      simp at he

/-- Witness for C4: on the empty table all three strategies are empty and the
detector raises exactly the descriptive error. -/
theorem c4_witness : find_rank_records dfEmpty = .error detectErrMsg :=
  (c4_detect_error_iff_all_strategies_empty dfEmpty).1.mpr ⟨by decide, by decide, by decide⟩

/-! ### Claim C2 -/

/-- Claim C2 counterexample: a ranking column with valid values 1, 2, 7.5 has
rounded maximum 8, but the code computes `int(7.5) = 7` (truncation), so the
candidate's scale is 7, not 8; with scale 7 no bucket table applies, so the
wide table yields no observations, and the long-form variant of the same data
is matched by no strategy at all. -/
theorem c2_counterexample :
    (numericCandidates dfC2).map (fun t => t.2.2) = [7]
    ∧ pyInt (listMax [1, 2, mkRat 15 2]) = 7
    ∧ round (mkRat 15 2) = 8
    ∧ (7 : ℤ) ≠ 8
    ∧ strat1 dfC2 = []
    ∧ strat1 dfC2b = [] ∧ strat2 dfC2b = [] ∧ strat3 dfC2b = [] := by
  refine ⟨by decide, by decide, ?_, by decide, by decide, by decide, by decide, by decide⟩
  rw [show mkRat 15 2 = (15 : ℚ) / 2 by rw [Rat.mkRat_eq_divInt, Rat.divInt_eq_div]; norm_num]
  rw [round_eq]
  norm_num

/-- Claim C2 amended: in Strategy 1 (and identically in Strategy 2) the scale
passed to `categorize_numeric` is the valid maximum truncated toward zero by
Python `int()`, not rounded; every valid maximum in [7.5, 8) therefore yields
scale 7 — for which `categorize_numeric` selects no bucket table — where
rounding would have yielded 8. -/
theorem c2_amended_scale_is_truncated_max :
    (∀ (df : DF) (col : String) (series : List (Option ℚ)) (mx : ℤ),
        (col, series, mx) ∈ numericCandidates df →
        ∃ c ∈ df.cols, c.1 = col ∧ series = c.2.map coerceNum
          ∧ (c.2.map coerceNum).filterMap id ≠ []
          ∧ mx = pyInt (listMax ((c.2.map coerceNum).filterMap id)))
    ∧ (∀ q : ℚ, 15 / 2 ≤ q → q < 8 → pyInt q = 7 ∧ round q = 8)
    ∧ (∀ v : ℚ, categorize_numeric (some v) 7 = none) := by
  refine ⟨?_, ?_, ?_⟩
  · intro df col series mx hmem
    simp only [numericCandidates, List.mem_filterMap] at hmem
    obtain ⟨c, hc, heq⟩ := hmem
    refine ⟨c, hc, ?_⟩
    split at heq
    · exact absurd heq (by simp)
    · split at heq
      · rename_i hne hcond
        simp only [Option.some.injEq, Prod.mk.injEq] at heq
        obtain ⟨h1, h2, h3⟩ := heq
        exact ⟨h1, h2.symm, hne, h3.symm⟩
      · exact absurd heq (by simp)
  · intro q h1 h2
    constructor
    · have h0 : (0 : ℚ) ≤ q := by linarith
      rw [pyInt, if_pos h0, Int.floor_eq_iff]
      push_cast
      constructor <;> linarith
    · rw [round_eq, Int.floor_eq_iff]
      push_cast
      constructor <;> linarith
  · intro v
    exact catnum_other 7 (by decide) (by decide) v

/-- Witness for the amended C2 at the concrete fractional maximum 7.5. -/
theorem c2_amended_witness : pyInt (15 / 2 : ℚ) = 7 ∧ round (15 / 2 : ℚ) = 8 :=
  c2_amended_scale_is_truncated_max.2.1 (15 / 2) le_rfl (by norm_num)

/-! ### Sorting helper lemmas for the aggregator -/

theorem rowLE_iff (a b : Row) :
    rowLE a b = true
      ↔ b.nas < a.nas
        ∨ (a.nas = b.nas ∧ (b.pct_most < a.pct_most
            ∨ (a.pct_most = b.pct_most ∧ b.n_total ≤ a.n_total))) := by
  simp [rowLE]

theorem rowLE_total (a b : Row) : rowLE a b = true ∨ rowLE b a = true := by
  rw [rowLE_iff, rowLE_iff]
  rcases lt_trichotomy a.nas b.nas with h | h | h
  · exact Or.inr (Or.inl h)
  · rcases lt_trichotomy a.pct_most b.pct_most with h' | h' | h'
    · exact Or.inr (Or.inr ⟨h.symm, Or.inl h'⟩)
    · rcases Nat.le_total a.n_total b.n_total with h'' | h''
      · exact Or.inr (Or.inr ⟨h.symm, Or.inr ⟨h'.symm, h''⟩⟩)
      · exact Or.inl (Or.inr ⟨h, Or.inr ⟨h', h''⟩⟩)
    · exact Or.inl (Or.inr ⟨h, Or.inl h'⟩)
  · exact Or.inl (Or.inl h)

theorem rowLE_trans {a b c : Row} (hab : rowLE a b = true) (hbc : rowLE b c = true) :
    rowLE a c = true := by
  rw [rowLE_iff] at hab hbc ⊢
  rcases hab with h | ⟨h, h'⟩ <;> rcases hbc with g | ⟨g, g'⟩
  · exact Or.inl (lt_trans g h)
  · exact Or.inl (g ▸ h)
  · exact Or.inl (h ▸ g)
  · rcases h' with h' | ⟨h', h''⟩ <;> rcases g' with g' | ⟨g', g''⟩
    · exact Or.inr ⟨h.trans g, Or.inl (lt_trans g' h')⟩
    · exact Or.inr ⟨h.trans g, Or.inl (g' ▸ h')⟩
    · exact Or.inr ⟨h.trans g, Or.inl (h' ▸ g')⟩
    · exact Or.inr ⟨h.trans g, Or.inr ⟨h'.trans g', g''.trans h''⟩⟩

theorem mem_insertRow (r x : Row) (l : List Row) :
    x ∈ insertRow r l ↔ x = r ∨ x ∈ l := by
  induction l with
  | nil => simp [insertRow]
  | cons y ys ih =>
    rw [insertRow]
    by_cases hc : rowLE r y = true
    · simp only [if_pos hc, List.mem_cons]
    · simp only [if_neg hc, List.mem_cons, ih]
      tauto

theorem pairwise_insertRow (r : Row) (l : List Row)
    (h : l.Pairwise (fun a b => rowLE a b = true)) :
    (insertRow r l).Pairwise (fun a b => rowLE a b = true) := by
  induction l with
  | nil => simp [insertRow]
  | cons x xs ih =>
    rw [List.pairwise_cons] at h
    obtain ⟨hx, hxs⟩ := h
    rw [insertRow]
    by_cases hc : rowLE r x = true
    · rw [if_pos hc]
      refine List.Pairwise.cons ?_ (List.Pairwise.cons hx hxs)
      intro y hy
      rcases List.mem_cons.mp hy with rfl | hy'
      · exact hc
      · exact rowLE_trans hc (hx y hy')
    · rw [if_neg hc]
      refine List.Pairwise.cons ?_ (ih hxs)
      intro y hy
      rcases (mem_insertRow r y xs).mp hy with heq | hy'
      · rw [heq]
        rcases rowLE_total r x with h' | h'
        · exact absurd h' hc
        · exact h'
      · exact hx y hy'

theorem sortRows_cons (a : Row) (l : List Row) :
    sortRows (a :: l) = insertRow a (sortRows l) := rfl

theorem mem_sortRows (x : Row) (l : List Row) : x ∈ sortRows l ↔ x ∈ l := by
  induction l with
  | nil => simp [sortRows]
  | cons y ys ih =>
    rw [sortRows_cons, mem_insertRow, ih, List.mem_cons]

theorem pairwise_sortRows (l : List Row) :
    (sortRows l).Pairwise (fun a b => rowLE a b = true) := by
  induction l with
  | nil => simp [sortRows]
  | cons y ys ih => exact sortRows_cons y ys ▸ pairwise_insertRow y (sortRows ys) ih

theorem length_rankFrom (n : ℕ) (l : List Row) :
    (rankFrom n l).length = l.length := by
  induction l generalizing n with
  | nil => rfl
  | cons y ys ih => simp [rankFrom, ih]

theorem mem_rankFrom {x : Row} (n : ℕ) (l : List Row) (hx : x ∈ rankFrom n l) :
    ∃ r ∈ l, ∃ k, x = { r with rank := k } := by
  induction l generalizing n with
  | nil => simp [rankFrom] at hx
  | cons y ys ih =>
    rw [rankFrom, List.mem_cons] at hx
    rcases hx with rfl | hx'
    · exact ⟨y, List.mem_cons_self y ys, n, rfl⟩
    · obtain ⟨r, hr, k, rfl⟩ := ih (n + 1) hx'
      exact ⟨r, List.mem_cons_of_mem y hr, k, rfl⟩

theorem get_rankFrom (l : List Row) (n i : ℕ) (h : i < (rankFrom n l).length) :
    ((rankFrom n l).get ⟨i, h⟩).rank = n + i := by
  induction l generalizing n i with
  | nil => rw [rankFrom] at h; simp at h
  | cons y ys ih =>
    cases i with
    | zero => rfl
    | succ j =>
      have h' : j < (rankFrom (n + 1) ys).length := by
        rw [rankFrom] at h
        simpa using h
      have : ((rankFrom n (y :: ys)).get ⟨j + 1, h⟩)
          = (rankFrom (n + 1) ys).get ⟨j, h'⟩ := rfl
      rw [this, ih]
      omega

theorem pairwise_rankFrom (n : ℕ) (l : List Row)
    (h : l.Pairwise (fun a b => rowLE a b = true)) :
    (rankFrom n l).Pairwise (fun a b => rowLE a b = true) := by
  induction l generalizing n with
  | nil => exact List.Pairwise.nil
  | cons y ys ih =>
    rw [List.pairwise_cons] at h
    obtain ⟨hy, hys⟩ := h
    rw [rankFrom]
    refine List.Pairwise.cons ?_ (ih (n + 1) hys)
    intro z hz
    obtain ⟨r, hr, k, rfl⟩ := mem_rankFrom (n + 1) ys hz
    have : rowLE { y with rank := n } { r with rank := k } = rowLE y r := rfl
    rw [this]
    exact hy r hr

/-! ### Claim C6 -/

/-- Claim C6: every row of the summary satisfies
`n_total = n_most + n_neutral + n_least > 0` (courses with zero observations
never appear), `pct_most = n_most/n_total·100`, `pct_least =
n_least/n_total·100` and `nas = pct_most − pct_least`; in particular a course
with 10 observations split 6/2/2 gets pct_most 60, pct_least 20, nas 40. -/
theorem c6_summary_row_invariants :
    (∀ (recs : List Obs) (r : Row), r ∈ summarize_nas recs →
      r.n_total = r.n_most + r.n_neutral + r.n_least
      ∧ 0 < r.n_total
      ∧ r.pct_most = (r.n_most : ℚ) / (r.n_total : ℚ) * 100
      ∧ r.pct_least = (r.n_least : ℚ) / (r.n_total : ℚ) * 100
      ∧ r.nas = r.pct_most - r.pct_least)
    ∧ summarize_nas recsC6 = [rowX] := by
  constructor
  · intro recs r hr
    obtain ⟨r0, hr0, k, rfl⟩ := mem_rankFrom 1 _ hr
    rw [mem_sortRows] at hr0
    rw [List.mem_filter] at hr0
    obtain ⟨hmem, hpos⟩ := hr0
    rw [List.mem_map] at hmem
    obtain ⟨c, _, rfl⟩ := hmem
    refine ⟨rfl, by simpa using hpos, rfl, rfl, rfl⟩
  · have hkeys : courseKeys recsC6 = ["X"] := by decide
    have h6 : ((recsC6.filter (fun o => o.course = "X")).countP
        (fun o => o.bucket = Bucket.most)) = 6 := by decide
    have h2 : ((recsC6.filter (fun o => o.course = "X")).countP
        (fun o => o.bucket = Bucket.neutral)) = 2 := by decide
    have h2' : ((recsC6.filter (fun o => o.course = "X")).countP
        (fun o => o.bucket = Bucket.least)) = 2 := by decide
    have hrow : mkRow recsC6 "X" = ⟨0, "X", 10, 6, 2, 2, 60, 20, 40⟩ := by
      simp only [mkRow, h6, h2, h2']
      simp only [Row.mk.injEq]
      norm_num
    rw [summarize_nas, hkeys]
    simp only [List.map_cons, List.map_nil, hrow]
    decide

/-- Witness for C6: the invariant instantiated at the single row produced by
the concrete 6/2/2 observation list. -/
theorem c6_witness :
    rowX.n_total = rowX.n_most + rowX.n_neutral + rowX.n_least
    ∧ 0 < rowX.n_total
    ∧ rowX.pct_most = (rowX.n_most : ℚ) / (rowX.n_total : ℚ) * 100
    ∧ rowX.pct_least = (rowX.n_least : ℚ) / (rowX.n_total : ℚ) * 100
    ∧ rowX.nas = rowX.pct_most - rowX.pct_least :=
  c6_summary_row_invariants.1 recsC6 rowX
    (by rw [c6_summary_row_invariants.2]; exact List.mem_singleton.mpr rfl)

/-! ### Claim C7 -/

/-- Claim C7: summary rows are sorted by the key (nas desc, pct_most desc,
n_total desc) and each row's rank is its 1-based position; in particular, for
A(nas 40, pct_most 60, n 10) and B(nas 40, pct_most 60, n 5), A is ranked
above B. -/
theorem c7_summary_sorted_and_ranked :
    (∀ recs : List Obs,
      (summarize_nas recs).Pairwise (fun a b => rowLE a b = true))
    ∧ (∀ (recs : List Obs) (i : ℕ) (h : i < (summarize_nas recs).length),
        ((summarize_nas recs).get ⟨i, h⟩).rank = i + 1)
    ∧ summarize_nas recsC7 = [rowA, rowB] := by
  refine ⟨?_, ?_, ?_⟩
  · intro recs
    exact pairwise_rankFrom 1 _ (pairwise_sortRows _)
  · intro recs i h
    exact (get_rankFrom _ 1 i h).trans (Nat.add_comm 1 i)
  · have hkeys : courseKeys recsC7 = ["A", "B"] := by decide
    have ha6 : ((recsC7.filter (fun o => o.course = "A")).countP
        (fun o => o.bucket = Bucket.most)) = 6 := by decide
    have ha2 : ((recsC7.filter (fun o => o.course = "A")).countP
        (fun o => o.bucket = Bucket.neutral)) = 2 := by decide
    have ha2' : ((recsC7.filter (fun o => o.course = "A")).countP
        (fun o => o.bucket = Bucket.least)) = 2 := by decide
    have hb3 : ((recsC7.filter (fun o => o.course = "B")).countP
        (fun o => o.bucket = Bucket.most)) = 3 := by decide
    have hb1 : ((recsC7.filter (fun o => o.course = "B")).countP
        (fun o => o.bucket = Bucket.neutral)) = 1 := by decide
    have hb1' : ((recsC7.filter (fun o => o.course = "B")).countP
        (fun o => o.bucket = Bucket.least)) = 1 := by decide
    have hrowA : mkRow recsC7 "A" = ⟨0, "A", 10, 6, 2, 2, 60, 20, 40⟩ := by
      simp only [mkRow, ha6, ha2, ha2']
      simp only [Row.mk.injEq]
      norm_num
    have hrowB : mkRow recsC7 "B" = ⟨0, "B", 5, 3, 1, 1, 60, 20, 40⟩ := by
      simp only [mkRow, hb3, hb1, hb1']
      simp only [Row.mk.injEq]
      norm_num
    rw [summarize_nas, hkeys]
    simp only [List.map_cons, List.map_nil, hrowA, hrowB]
    decide

/-- Witness for C7: ranks 1 and 2 at positions 0 and 1 of the concrete
two-course summary (A before B despite the tie on nas and pct_most). -/
theorem c7_witness :
    ((summarize_nas recsC7).get ⟨0, by rw [c7_summary_sorted_and_ranked.2.2]; decide⟩).rank = 1
    ∧ ((summarize_nas recsC7).get ⟨1, by rw [c7_summary_sorted_and_ranked.2.2]; decide⟩).rank = 2 :=
  ⟨c7_summary_sorted_and_ranked.2.1 recsC7 0 _,
   c7_summary_sorted_and_ranked.2.1 recsC7 1 _⟩

/-! ### Digit-string lemmas -/

theorem digitsVal_append (l : List Char) (c : Char) :
    digitsVal (l ++ [c]) = (digitsVal l) * 10 + (c.toNat - 48) := by
  simp [digitsVal, List.foldl_append]

theorem digitChar_toNat (n : ℕ) (h : n < 10) : (digitChar n).toNat = 48 + n := by
  interval_cases n <;> rfl

theorem isKeep_digitChar (n : ℕ) : isKeep (digitChar n) = true := by
  unfold digitChar
  split <;> rfl

theorem keep_ne_underscore (c : Char) (h : isKeep c = true) : c ≠ '_' := by
  intro he
  subst he
  exact absurd h (by decide)

theorem digitsVal_natDigitsAux (fuel n : ℕ) (h : n < fuel) :
    digitsVal (natDigitsAux fuel n) = n := by
  induction fuel generalizing n with
  | zero => omega
  | succ f ih =>
    rw [natDigitsAux]
    by_cases hn : n < 10
    · rw [if_pos hn]
      simp [digitsVal, digitChar_toNat n hn]
    · rw [if_neg hn]
      have hdiv : n / 10 < n := Nat.div_lt_self (by omega) (by omega)
      rw [digitsVal_append, ih (n / 10) (by omega), digitChar_toNat (n % 10) (by omega)]
      omega

theorem natDigits_inj : Function.Injective natDigits := by
  intro m n h
  have hm := digitsVal_natDigitsAux (m + 1) m (Nat.lt_succ_self m)
  have hn := digitsVal_natDigitsAux (n + 1) n (Nat.lt_succ_self n)
  calc m = digitsVal (natDigits m) := hm.symm
    _ = digitsVal (natDigits n) := congrArg digitsVal h
    _ = n := hn

theorem natDigitsAux_ne_nil (fuel n : ℕ) : natDigitsAux (fuel + 1) n ≠ [] := by
  rw [natDigitsAux]
  split
  · simp
  · simp

theorem mem_natDigitsAux_keep (fuel : ℕ) :
    ∀ (n : ℕ) (c : Char), c ∈ natDigitsAux fuel n → isKeep c = true := by
  induction fuel with
  | zero => intro n c hc; simp [natDigitsAux] at hc
  | succ f ih =>
    intro n c hc
    rw [natDigitsAux] at hc
    split at hc
    · rw [List.mem_singleton] at hc
      subst hc
      exact isKeep_digitChar n
    · rw [List.mem_append] at hc
      rcases hc with hc | hc
      · exact ih (n / 10) c hc
      · rw [List.mem_singleton] at hc
        subst hc
        exact isKeep_digitChar (n % 10)

/-! ### Squash lemmas -/

theorem squash_mem (l : List Char) :
    ∀ (p : Bool) (c : Char), c ∈ squash l p → isKeep c = true ∨ c = '_' := by
  induction l with
  | nil => intro p c hc; simp [squash] at hc
  | cons a rest ih =>
    intro p c hc
    rw [squash] at hc
    split at hc
    · rcases List.mem_cons.mp hc with rfl | h
      · rename_i ha; exact Or.inl ha
      · exact ih _ c h
    · split at hc
      · exact ih _ c hc
      · rcases List.mem_cons.mp hc with rfl | h
        · exact Or.inr rfl
        · exact ih _ c h

theorem squash_chain (l : List Char) :
    ∀ p : Bool, noAdjU (squash l p)
      ∧ (p = true → (squash l p).head? ≠ some '_') := by
  induction l with
  | nil =>
    intro p
    exact ⟨List.chain'_nil, by intro _ h; simp [squash] at h⟩
  | cons a rest ih =>
    intro p
    rw [squash]
    by_cases ha : isKeep a = true
    · rw [if_pos ha]
      constructor
      · rw [noAdjU, List.chain'_cons']
        refine ⟨?_, (ih false).1⟩
        intro b _ hcon
        exact keep_ne_underscore a ha hcon.1
      · intro _ hcon
        exact keep_ne_underscore a ha (Option.some.inj hcon)
    · rw [if_neg ha]
      by_cases hp : p = true
      · rw [if_pos hp]
        exact ⟨(ih true).1, fun _ => (ih true).2 rfl⟩
      · rw [if_neg hp]
        constructor
        · rw [noAdjU, List.chain'_cons']
          refine ⟨?_, (ih true).1⟩
          intro b hb hcon
          have hhd := (ih true).2 rfl
          rw [hcon.2] at hb
          exact hhd (Option.mem_def.mp hb)
        · intro hp'
          exact absurd hp' hp

theorem squash_id (l : List Char) :
    ∀ p : Bool, (∀ c ∈ l, isKeep c = true ∨ c = '_') → noAdjU l →
      (p = true → l.head? ≠ some '_') → squash l p = l := by
  induction l with
  | nil => intro p _ _ _; rfl
  | cons a rest ih =>
    intro p hmem hchain hp
    rcases hmem a (List.mem_cons_self a rest) with ha | ha
    · rw [squash, if_pos ha]
      congr 1
      exact ih false (fun c hc => hmem c (List.mem_cons_of_mem a hc))
        hchain.tail (fun h => by simp at h)
    · subst ha
      cases p with
      | true => exact absurd rfl (hp rfl)
      | false =>
        rw [squash, if_neg (by decide), if_neg (by simp)]
        congr 1
        rw [noAdjU, List.chain'_cons'] at hchain
        obtain ⟨hhd, htl⟩ := hchain
        refine ih true (fun c hc => hmem c (List.mem_cons_of_mem _ hc)) htl ?_
        intro _ hcon
        exact hhd '_' (by rw [hcon]; rfl) ⟨rfl, rfl⟩

/-! ### stripEnds lemmas -/

theorem mem_dropWhile_imp (p : Char → Bool) (l : List Char) (c : Char)
    (hc : c ∈ l.dropWhile p) : c ∈ l := by
  induction l with
  | nil => simp [List.dropWhile] at hc
  | cons a rest ih =>
    rw [List.dropWhile_cons] at hc
    split at hc
    · exact List.mem_cons_of_mem a (ih hc)
    · exact hc

theorem head?_dropWhile (p : Char → Bool) (l : List Char) (c : Char)
    (h : (l.dropWhile p).head? = some c) : p c = false := by
  induction l with
  | nil => simp [List.dropWhile] at h
  | cons a rest ih =>
    rw [List.dropWhile_cons] at h
    split at h
    · exact ih h
    · rename_i hpa
      have : a = c := Option.some.inj h
      subst this
      exact Bool.not_eq_true _ ▸ hpa

theorem getLast?_dropWhile (p : Char → Bool) (l : List Char)
    (h : l.dropWhile p ≠ []) : (l.dropWhile p).getLast? = l.getLast? := by
  induction l with
  | nil => exact absurd rfl h
  | cons a rest ih =>
    rw [List.dropWhile_cons] at h ⊢
    split
    · rename_i hpa
      rw [if_pos hpa] at h
      rw [ih h]
      have hrest : rest ≠ [] := by
        intro he
        rw [he] at h
        exact h rfl
      cases rest with
      | nil => exact absurd rfl hrest
      | cons b bs => rw [List.getLast?_cons_cons]
    · rfl

theorem dropWhile_eq_self (p : Char → Bool) (l : List Char)
    (hh : ∀ c, l.head? = some c → p c = false) : l.dropWhile p = l := by
  cases l with
  | nil => rfl
  | cons a rest =>
    rw [List.dropWhile_cons, if_neg]
    rw [hh a rfl]
    simp

theorem mem_stripEnds (p : Char → Bool) (l : List Char) (c : Char)
    (hc : c ∈ stripEnds p l) : c ∈ l := by
  rw [stripEnds] at hc
  rw [List.mem_reverse] at hc
  have hc2 := mem_dropWhile_imp p _ c hc
  rw [List.mem_reverse] at hc2
  exact mem_dropWhile_imp p l c hc2

theorem noAdjU_reverse (l : List Char) (h : noAdjU l) : noAdjU l.reverse := by
  rw [noAdjU, List.chain'_reverse]
  exact h.imp (fun a b hab hcon => hab ⟨hcon.2, hcon.1⟩)

theorem noAdjU_dropWhile (p : Char → Bool) (l : List Char) (h : noAdjU l) :
    noAdjU (l.dropWhile p) :=
  List.Chain'.suffix h (List.dropWhile_suffix p)

theorem noAdjU_stripEnds (p : Char → Bool) (l : List Char) (h : noAdjU l) :
    noAdjU (stripEnds p l) := by
  rw [stripEnds]
  exact noAdjU_reverse _ (noAdjU_dropWhile p _ (noAdjU_reverse _ (noAdjU_dropWhile p l h)))

theorem head?_stripEnds (p : Char → Bool) (l : List Char) (c : Char)
    (h : (stripEnds p l).head? = some c) : p c = false := by
  rw [stripEnds, List.head?_reverse] at h
  have hne : (l.dropWhile p).reverse.dropWhile p ≠ [] := by
    intro he
    rw [he] at h
    simp at h
  rw [getLast?_dropWhile p _ hne, List.getLast?_reverse] at h
  exact head?_dropWhile p l c h

theorem getLast?_stripEnds (p : Char → Bool) (l : List Char) (c : Char)
    (h : (stripEnds p l).getLast? = some c) : p c = false := by
  rw [stripEnds, List.getLast?_reverse] at h
  exact head?_dropWhile p _ c h

theorem stripEnds_eq_self (p : Char → Bool) (l : List Char)
    (hh : ∀ c, l.head? = some c → p c = false)
    (hl : ∀ c, l.getLast? = some c → p c = false) : stripEnds p l = l := by
  rw [stripEnds, dropWhile_eq_self p l hh, dropWhile_eq_self, List.reverse_reverse]
  intro c hc
  rw [List.head?_reverse] at hc
  exact hl c hc

/-! ### snake_case canonicality and identity -/

theorem not_spc_of_keepU (c : Char) (h : isKeep c = true ∨ c = '_') :
    isSpc c = false := by
  rcases h with h | rfl
  · by_contra hs
    rw [Bool.not_eq_false] at hs
    have hc : c = ' ' ∨ c = '\t' ∨ c = '\n' ∨ c = '\r' ∨ c = '\x0b' ∨ c = '\x0c' := by
      simpa [isSpc, or_assoc] using hs
    rcases hc with rfl | rfl | rfl | rfl | rfl | rfl <;> exact absurd h (by decide)
  · rfl

theorem toLower_eq_self_of_keepU (c : Char) (h : isKeep c = true ∨ c = '_') :
    c.toLower = c := by
  have hn : ¬(c.toNat ≥ 65 ∧ c.toNat ≤ 90) := by
    rcases h with h | rfl
    · simp only [isKeep, Bool.or_eq_true, Bool.and_eq_true, decide_eq_true_eq] at h
      omega
    · decide
  rw [Char.toLower, if_neg hn]

/-- The underscore test used by `snake_case`'s final strip. -/
theorem canonical_snakeList (l : List Char) : canonical (snakeList l) := by
  rw [snakeList]
  by_cases he : stripEnds (fun c => c = '_')
      (squash ((stripEnds isSpc l).map Char.toLower) false) = []
  · rw [if_pos he]
    refine ⟨by decide, by decide, ?_, by decide, by decide⟩
    simp +decide [noAdjU, List.chain'_cons]
  · rw [if_neg he]
    refine ⟨he, ?_, ?_, ?_, ?_⟩
    · intro c hc
      exact squash_mem _ _ c (mem_stripEnds _ _ c hc)
    · exact noAdjU_stripEnds _ _ (squash_chain _ false).1
    · intro hcon
      cases hhd : (stripEnds (fun c => c = '_')
          (squash ((stripEnds isSpc l).map Char.toLower) false)).head? with
      | none => rw [hhd] at hcon; cases hcon
      | some c =>
        rw [hhd] at hcon
        have hc := head?_stripEnds _ _ c hhd
        have : c = '_' := Option.some.inj hcon
        subst this
        simp at hc
    · intro hcon
      cases hhd : (stripEnds (fun c => c = '_')
          (squash ((stripEnds isSpc l).map Char.toLower) false)).getLast? with
      | none => rw [hhd] at hcon; cases hcon
      | some c =>
        rw [hhd] at hcon
        have hc := getLast?_stripEnds _ _ c hhd
        have : c = '_' := Option.some.inj hcon
        subst this
        simp at hc

theorem head?_mem {l : List Char} {c : Char} (h : l.head? = some c) : c ∈ l := by
  cases l with
  | nil => simp at h
  | cons a rest =>
    have : a = c := Option.some.inj h
    subst this
    exact List.mem_cons_self a rest

theorem getLast?_mem {l : List Char} {c : Char} (h : l.getLast? = some c) : c ∈ l := by
  have h' : l.reverse.head? = some c := by rw [List.head?_reverse]; exact h
  exact List.mem_reverse.mp (head?_mem h')

theorem snakeList_eq_self (l : List Char) (h : canonical l) : snakeList l = l := by
  obtain ⟨hne, hmem, hchain, hhd, hlast⟩ := h
  have hstrip : stripEnds isSpc l = l := by
    refine stripEnds_eq_self isSpc l ?_ ?_
    · intro c hc
      exact not_spc_of_keepU c (hmem c (head?_mem hc))
    · intro c hc
      exact not_spc_of_keepU c (hmem c (getLast?_mem hc))
  have hmap : l.map Char.toLower = l := by
    have h1 : l.map Char.toLower = l.map id :=
      List.map_congr_left (fun c hc => toLower_eq_self_of_keepU c (hmem c hc))
    rw [h1, List.map_id]
  have hsq : squash l false = l := by
    refine squash_id l false hmem hchain ?_
    intro hcon
    simp at hcon
  have hstripU : stripEnds (fun c => c = '_') l = l := by
    refine stripEnds_eq_self _ l ?_ ?_
    · intro c hc
      by_cases hcu : c = '_'
      · subst hcu
        exact absurd hc hhd
      · simp [hcu]
    · intro c hc
      by_cases hcu : c = '_'
      · subst hcu
        exact absurd hc hlast
      · simp [hcu]
  rw [snakeList, hstrip, hmap, hsq, hstripU, if_neg hne]

/-! ### withSuffix lemmas -/

theorem withSuffix_data (base : String) (i : ℕ) :
    (withSuffix base i).data = base.data ++ '_' :: natDigits i := by
  rw [withSuffix, String.data_append, String.data_append]
  simp

theorem withSuffix_inj (base : String) (i j : ℕ)
    (h : withSuffix base i = withSuffix base j) : i = j := by
  have hd := congrArg String.data h
  rw [withSuffix_data, withSuffix_data] at hd
  have h2 := List.append_cancel_left hd
  have h3 : natDigits i = natDigits j := by injection h2
  exact natDigits_inj h3

theorem noAdjU_of_keep (l : List Char) (h : ∀ c ∈ l, isKeep c = true) : noAdjU l := by
  induction l with
  | nil => exact List.chain'_nil
  | cons a rest ih =>
    rw [noAdjU, List.chain'_cons']
    refine ⟨?_, ih (fun c hc => h c (List.mem_cons_of_mem a hc))⟩
    intro b _ hcon
    exact keep_ne_underscore a (h a (List.mem_cons_self a rest)) hcon.1

theorem canonical_withSuffix (base : String) (i : ℕ) (h : canonical base.data) :
    canonical (withSuffix base i).data := by
  obtain ⟨hne, hmem, hchain, hhd, hlast⟩ := h
  rw [withSuffix_data]
  have hdig_ne : natDigits i ≠ [] := natDigitsAux_ne_nil i i
  have hdig_keep : ∀ c ∈ natDigits i, isKeep c = true :=
    fun c hc => mem_natDigitsAux_keep (i + 1) i c hc
  refine ⟨by simp, ?_, ?_, ?_, ?_⟩
  · intro c hc
    rw [List.mem_append] at hc
    rcases hc with hc | hc
    · exact hmem c hc
    · rcases List.mem_cons.mp hc with rfl | hc'
      · exact Or.inr rfl
      · exact Or.inl (hdig_keep c hc')
  · rw [noAdjU, List.chain'_append]
    refine ⟨hchain, ?_, ?_⟩
    · rw [List.chain'_cons']
      refine ⟨?_, noAdjU_of_keep _ hdig_keep⟩
      intro b hb hcon
      exact keep_ne_underscore b (hdig_keep b (head?_mem (Option.mem_def.mp hb))) hcon.2
    · intro x hx y hy hcon
      rw [hcon.1] at hx
      exact hlast (Option.mem_def.mp hx)
  · cases hb : base.data with
    | nil => exact absurd hb hne
    | cons a t =>
      rw [hb] at hhd
      rw [List.cons_append]
      exact hhd
  · rw [List.getLast?_append]
    cases hnd : natDigits i with
    | nil => exact absurd hnd hdig_ne
    | cons d ds =>
      rw [List.getLast?_cons_cons]
      have hsome : (d :: ds).getLast? ≠ none := by
        cases hgl : (d :: ds).getLast? with
        | none =>
          have : d :: ds ≠ [] := by simp
          rw [List.getLast?_eq_none_iff] at hgl
          exact absurd hgl this
        | some c => simp
      cases hgl : (d :: ds).getLast? with
      | none => exact absurd hgl hsome
      | some c =>
        have hcmem : c ∈ d :: ds := getLast?_mem hgl
        have hck : isKeep c = true := by
          rw [← hnd] at hcmem
          exact hdig_keep c hcmem
        simp only [Option.or]
        intro hcon
        exact keep_ne_underscore c hck (Option.some.inj hcon)

/-! ### freshName lemmas -/

theorem firstFresh_mem_or (cands : List String) (used : List String) (d : String) :
    firstFresh cands used d = d ∨ firstFresh cands used d ∈ cands := by
  induction cands with
  | nil => exact Or.inl rfl
  | cons c rest ih =>
    rw [firstFresh]
    by_cases hc : c ∈ used
    · rw [if_pos hc]
      rcases ih with h | h
      · exact Or.inl h
      · exact Or.inr (List.mem_cons_of_mem c h)
    · rw [if_neg hc]
      exact Or.inr (List.mem_cons_self c rest)

theorem firstFresh_not_mem (cands : List String) (used : List String) (d : String)
    (h : ∃ c ∈ cands, c ∉ used) : firstFresh cands used d ∉ used := by
  induction cands with
  | nil =>
    obtain ⟨c, hc, _⟩ := h
    simp at hc
  | cons c rest ih =>
    rw [firstFresh]
    by_cases hc : c ∈ used
    · rw [if_pos hc]
      apply ih
      obtain ⟨x, hx, hxu⟩ := h
      rcases List.mem_cons.mp hx with rfl | hx'
      · exact absurd hc hxu
      · exact ⟨x, hx', hxu⟩
    · rw [if_neg hc]
      exact hc

theorem exists_fresh_candidate (base : String) (used : List String) :
    ∃ c ∈ (List.range (used.length + 1)).map (fun k => withSuffix base (k + 2)),
      c ∉ used := by
  by_contra hall
  push_neg at hall
  have hnd : ((List.range (used.length + 1)).map
      (fun k => withSuffix base (k + 2))).Nodup := by
    refine List.Nodup.map ?_ (List.nodup_range _)
    intro a b hab
    have := withSuffix_inj base (a + 2) (b + 2) hab
    omega
  have hsub : (List.range (used.length + 1)).map (fun k => withSuffix base (k + 2))
      ⊆ used := fun a ha => hall a ha
  have hlen := (List.Nodup.subperm hnd hsub).length_le
  simp at hlen

theorem freshName_not_mem (base : String) (used : List String) :
    freshName base used ∉ used := by
  rw [freshName]
  by_cases hb : base ∈ used
  · rw [if_pos hb]
    exact firstFresh_not_mem _ _ _ (exists_fresh_candidate base used)
  · rw [if_neg hb]
    exact hb

theorem canonical_snake_case (s : String) : canonical (snake_case s).data :=
  canonical_snakeList s.data

theorem snake_case_eq_self (s : String) (h : canonical s.data) : snake_case s = s := by
  rw [snake_case, snakeList_eq_self s.data h]

theorem canonical_freshName (base : String) (used : List String)
    (h : canonical base.data) : canonical (freshName base used).data := by
  rw [freshName]
  by_cases hb : base ∈ used
  · rw [if_pos hb]
    rcases firstFresh_mem_or ((List.range (used.length + 1)).map
        (fun k => withSuffix base (k + 2))) used (withSuffix base 0) with he | he
    · rw [he]
      exact canonical_withSuffix base 0 h
    · rw [List.mem_map] at he
      obtain ⟨k, _, hk⟩ := he
      rw [← hk]
      exact canonical_withSuffix base (k + 2) h
  · rw [if_neg hb]
    exact h

theorem freshName_of_not_mem (base : String) (used : List String) (h : base ∉ used) :
    freshName base used = base := by
  rw [freshName, if_neg h]

/-! ### assigned and buildRen lemmas -/

theorem assigned_not_mem_nodup (cols : List String) :
    ∀ used : List String,
      (∀ x ∈ assigned cols used, x ∉ used) ∧ (assigned cols used).Nodup := by
  induction cols with
  | nil =>
    intro used
    exact ⟨by simp [assigned], List.nodup_nil⟩
  | cons c cs ih =>
    intro used
    simp only [assigned]
    constructor
    · intro x hx
      rcases List.mem_cons.mp hx with rfl | hx'
      · exact freshName_not_mem _ used
      · intro hxu
        exact (ih (freshName (snake_case c) used :: used)).1 x hx'
          (List.mem_cons_of_mem _ hxu)
    · rw [List.nodup_cons]
      refine ⟨?_, (ih _).2⟩
      intro hmem
      exact (ih (freshName (snake_case c) used :: used)).1 _ hmem
        (List.mem_cons_self _ _)

theorem canonical_assigned (cols : List String) :
    ∀ (used : List String) (x : String), x ∈ assigned cols used → canonical x.data := by
  induction cols with
  | nil =>
    intro used x hx
    simp [assigned] at hx
  | cons c cs ih =>
    intro used x hx
    simp only [assigned] at hx
    rcases List.mem_cons.mp hx with rfl | hx'
    · exact canonical_freshName _ used (canonical_snake_case c)
    · exact ih _ x hx'

theorem assigned_eq_self (cols : List String) :
    ∀ used : List String, (∀ x ∈ cols, canonical x.data) → cols.Nodup →
      (∀ x ∈ cols, x ∉ used) → assigned cols used = cols := by
  induction cols with
  | nil => intro used _ _ _; rfl
  | cons c cs ih =>
    intro used hcan hnd hused
    simp only [assigned]
    rw [snake_case_eq_self c (hcan c (List.mem_cons_self c cs)),
      freshName_of_not_mem c used (hused c (List.mem_cons_self c cs))]
    congr 1
    rw [List.nodup_cons] at hnd
    refine ih (c :: used) (fun x hx => hcan x (List.mem_cons_of_mem c hx)) hnd.2 ?_
    intro x hx hxc
    rcases List.mem_cons.mp hxc with rfl | hxu
    · exact hnd.1 hx
    · exact hused x (List.mem_cons_of_mem c hx) hxu

theorem buildRen_eq (cols : List String) :
    ∀ (used : List String) (d : List (String × String)), cols.Nodup →
      (∀ k ∈ cols, dictHasKey d k = false) →
      buildRen cols used d = d ++ cols.zip (assigned cols used) := by
  induction cols with
  | nil =>
    intro used d _ _
    simp [buildRen, assigned]
  | cons c cs ih =>
    intro used d hnd hkeys
    rw [List.nodup_cons] at hnd
    simp only [buildRen, assigned, List.zip_cons_cons]
    have hck : dictHasKey d c = false := hkeys c (List.mem_cons_self c cs)
    have hins : dictInsert d c (freshName (snake_case c) used)
        = d ++ [(c, freshName (snake_case c) used)] := by
      rw [dictInsert, if_neg]
      rw [hck]
      simp
    rw [hins]
    have hkeys' : ∀ k ∈ cs,
        dictHasKey (d ++ [(c, freshName (snake_case c) used)]) k = false := by
      intro k hk
      have h1 : dictHasKey d k = false := hkeys k (List.mem_cons_of_mem c hk)
      rw [dictHasKey] at h1 ⊢
      rw [List.any_append, h1]
      simp only [Bool.false_or, List.any_cons, List.any_nil, Bool.or_false,
        decide_eq_false_iff_not]
      intro heq
      exact hnd.1 (heq.symm ▸ hk)
    rw [ih (freshName (snake_case c) used :: used)
      (d ++ [(c, freshName (snake_case c) used)]) hnd.2 hkeys']
    simp [List.append_assoc]

theorem map_dictGet_zip (cols : List String) :
    ∀ used : List String, cols.Nodup →
      cols.map (fun c => (dictGet (cols.zip (assigned cols used)) c).getD c)
        = assigned cols used := by
  induction cols with
  | nil => intro used _; rfl
  | cons c cs ih =>
    intro used hnd
    rw [List.nodup_cons] at hnd
    simp only [assigned, List.zip_cons_cons, List.map_cons]
    congr 1
    · rw [dictGet, List.find?_cons_of_pos _ (by simp)]
      rfl
    · have hskip : ∀ x ∈ cs,
          (dictGet ((c, freshName (snake_case c) used)
              :: cs.zip (assigned cs (freshName (snake_case c) used :: used))) x).getD x
            = (dictGet (cs.zip (assigned cs (freshName (snake_case c) used :: used))) x).getD x := by
        intro x hx
        rw [dictGet, List.find?_cons_of_neg]
        · rfl
        · simp only [decide_eq_true_eq]
          intro heq
          exact hnd.1 (heq.symm ▸ hx)
      rw [List.map_congr_left hskip]
      exact ih (freshName (snake_case c) used :: used) hnd.2

theorem standardizeNames_eq_assigned (cols : List String) (hnd : cols.Nodup) :
    standardizeNames cols = assigned cols [] := by
  rw [standardizeNames]
  rw [buildRen_eq cols [] [] hnd (fun k _ => rfl)]
  simp only [List.nil_append]
  exact map_dictGet_zip cols [] hnd

/-! ### Claim C8 -/

/-- Claim C8 counterexample: `standardize_df` renames by *label* (a Python
dict), so a table with two identically labelled columns "a" maps both to the
collision name "a_2", and a second normalization renames both again to
"a_2_2" — normalization is not idempotent on tables with duplicate labels. -/
theorem c8_counterexample :
    (standardize_df (standardize_df dfC8)).cols.map (fun c => c.1)
      ≠ (standardize_df dfC8).cols.map (fun c => c.1)
    ∧ (standardize_df dfC8).cols.map (fun c => c.1) = ["a_2", "a_2"]
    ∧ (standardize_df (standardize_df dfC8)).cols.map (fun c => c.1)
      = ["a_2_2", "a_2_2"] := by
  refine ⟨by decide, by decide, by decide⟩

/-- Claim C8 amended: column normalization is idempotent on every table whose
original column labels are pairwise distinct (which holds for all tables the
loader produces): `standardize_df (standardize_df df) = standardize_df df`,
so in particular the column identifiers are unchanged by a second pass. -/
theorem c8_amended_idempotent_on_distinct_labels (df : DF)
    (hnd : (df.cols.map (fun c => c.1)).Nodup) :
    standardize_df (standardize_df df) = standardize_df df := by
  have hlen : (standardizeNames (df.cols.map (fun c => c.1))).length
      = (df.cols.map (fun c => c.2)).length := by
    simp [standardizeNames]
  have hfst : (standardize_df df).cols.map (fun c => c.1)
      = standardizeNames (df.cols.map (fun c => c.1)) := zip_map_fst _ _ hlen
  have hsnd : (standardize_df df).cols.map (fun c => c.2)
      = df.cols.map (fun c => c.2) := zip_map_snd _ _ hlen
  have houter : standardize_df (standardize_df df)
      = ⟨(standardizeNames (standardizeNames (df.cols.map (fun c => c.1)))).zip
          (df.cols.map (fun c => c.2))⟩ := by
    have hr : standardize_df (standardize_df df)
        = ⟨(standardizeNames ((standardize_df df).cols.map (fun c => c.1))).zip
            ((standardize_df df).cols.map (fun c => c.2))⟩ := rfl
    rw [hr, hfst, hsnd]
  have hN := standardizeNames_eq_assigned _ hnd
  have hnd2 : (standardizeNames (df.cols.map (fun c => c.1))).Nodup := by
    rw [hN]
    exact (assigned_not_mem_nodup _ []).2
  have hNN : standardizeNames (standardizeNames (df.cols.map (fun c => c.1)))
      = standardizeNames (df.cols.map (fun c => c.1)) := by
    rw [standardizeNames_eq_assigned _ hnd2]
    refine assigned_eq_self _ [] ?_ hnd2 ?_
    · intro x hx
      rw [hN] at hx
      exact canonical_assigned _ [] x hx
    · intro x _
      exact List.not_mem_nil x
  rw [houter, hNN]
  rfl

/-- Witness for the amended C8: a table with two distinct labels that collide
after snake-casing ("A b" and "a_b"); one normalization resolves the
collision and a second one changes nothing. -/
theorem c8_witness :
    (dfC8w.cols.map (fun c => c.1)).Nodup
    ∧ standardize_df (standardize_df dfC8w) = standardize_df dfC8w
    ∧ (standardize_df dfC8w).cols.map (fun c => c.1) = ["a_b", "a_b_2"] :=
  ⟨by decide, c8_amended_idempotent_on_distinct_labels dfC8w (by decide), by decide⟩
